import Mathlib

/-!
Verification of the dovecot snooze sweep (`dovecot-snooze.py`).

Shallow embedding: local naive datetimes are microseconds since the local
epoch (Python `datetime` has microsecond resolution and the script uses a
fixed non-timezone-aware basis throughout).  The mail-store gateway calls
issued by the script are recorded as a trace of `Action`s; `doveadm` exit
codes only influence diagnostic output, never control flow, so failure
flags are threaded only where a claim needs them.  Tag strings are
modelled as `List Char`.
-/

namespace Snooze

/-- Microseconds per second. -/
def usec : Nat := 1000000

/-- Microseconds per hour (`datetime.timedelta(hours=1)`). -/
def hourUs : Nat := 3600 * usec

/-- Microseconds per day (`datetime.timedelta(days=1)`). -/
def dayUs : Nat := 86400 * usec

/-- `UnixTime(t)` of the script: `int((t - epoch).total_seconds())`,
truncation of a nonnegative time to whole seconds. -/
def UnixTime (t : Nat) : Nat := t / usec

/-- `now.replace(hour=0, minute=0, second=0, microsecond=0)`:
truncate to midnight. -/
def midnightOf (t : Nat) : Nat := dayUs * (t / dayUs)

/-- `today.weekday()` with Monday = 0; the local epoch day
(1970-01-01) was a Thursday, weekday 3. -/
def weekdayOf (t : Nat) : Nat := (t / dayUs + 3) % 7

/-- The decimal digit character for `n < 10` (`'0'` has code 48). -/
def digitChar (n : Nat) : Char := Char.ofNat (48 + n)

/-- Fuel-indexed decimal rendering, most significant digit first. -/
def natDigitsAux : Nat → Nat → List Char
  | 0, _ => []
  | fuel + 1, n =>
    if n < 10 then [digitChar n]
    else natDigitsAux fuel (n / 10) ++ [digitChar (n % 10)]

/-- Decimal rendering of a natural number, as produced by `'%d' % n`. -/
def natDigits (n : Nat) : List Char := natDigitsAux (n + 1) n

/-- Value of a decimal digit character, `none` on a non-digit. -/
def digitVal (c : Char) : Option Nat :=
  if 48 ≤ c.toNat ∧ c.toNat ≤ 57 then some (c.toNat - 48) else none

/-- Accumulating decimal parse; fails on the first non-digit. -/
def parseDigitsAux : Nat → List Char → Option Nat
  | acc, [] => some acc
  | acc, c :: rest =>
    match digitVal c with
    | none => none
    | some d => parseDigitsAux (acc * 10 + d) rest

/-- Nonempty all-digit parse (the digit part of Python `int(str)`). -/
def parseDigitsNE : List Char → Option Nat
  | [] => none
  | l => parseDigitsAux 0 l

/-- Drop leading spaces. -/
def dropSpaces : List Char → List Char
  | [] => []
  | c :: rest => if c = ' ' then dropSpaces rest else c :: rest

/-- Strip leading and trailing spaces. -/
def stripSpaces (s : List Char) : List Char :=
  (dropSpaces (dropSpaces s).reverse).reverse

/-- Python `int(str)`: optional surrounding whitespace, optional sign,
then a nonempty run of decimal digits; anything else raises
`ValueError`, modelled as `none`. -/
def parseInt (s : List Char) : Option Int :=
  match stripSpaces s with
  | [] => none
  | c :: rest =>
    if c = '-' then (parseDigitsNE rest).map (fun n => -(n : Int))
    else if c = '+' then (parseDigitsNE rest).map (fun n => (n : Int))
    else (parseDigitsNE (c :: rest)).map (fun n => (n : Int))

/-- The six characters of the tag marker, as written by the script. -/
def moveAtChars : List Char := ['M', 'o', 'v', 'e', 'A', 't']

/-- The lowercase form the case-insensitive regex compares against. -/
def lcMoveAt : List Char := ['m', 'o', 'v', 'e', 'a', 't']

/-- The release tag `'MoveAt%d' % n`. -/
def mkTag (n : Nat) : List Char := moveAtChars ++ natDigits n

/-- `re.search('MoveAt(.*)', label, re.IGNORECASE)`: scan left to right
for the first case-insensitive occurrence of `MoveAt` and return the
remainder of the string (group 1). -/
def findMoveAt : List Char → Option (List Char)
  | [] => none
  | c :: rest =>
    if ((c :: rest).take 6).map Char.toLower = lcMoveAt then
      some ((c :: rest).drop 6)
    else findMoveAt rest

/-- Whether a label matches the release-tag pattern. -/
def hasMoveAt (l : List Char) : Bool := (findMoveAt l).isSome

/-- The transient per-invocation view of one mail (class `Mail`):
its uid, its IMAP labels, and the folder it was fetched from. -/
structure Mail where
  uid : String
  labels : List (List Char)
  folder : String

/-- One request issued to the `doveadm` gateway during the sweep. -/
inductive Action where
  | addTag (user folder uid : String) (tag : List Char)
  | removeFlags (user folder uid : String) (flags : List Char)
  | move (user folder uid : String)
deriving DecidableEq

/-- The five configured snooze folders, in scan order (`FOLDERS`). -/
def FOLDERS : List String :=
  ["Snooze.Until Friday 18:00", "Snooze.Until Monday 7:00",
   "Snooze.Until 7:00", "Snooze.Until 18:00", "Snooze.For 1 Hour"]

/-- Days to add for `Snooze.Until Monday 7:00`:
`snooze_days = 7 - day_of_week; if snooze_days == 0: snooze_days = 7`. -/
def snoozeDaysMonday (wd : Nat) : Int :=
  let d : Int := 7 - wd
  if d = 0 then 7 else d

/-- Days to add for `Snooze.Until Friday 18:00`:
`snooze_days = 4 - day_of_week; if snooze_days < 1: snooze_days += 7`. -/
def snoozeDaysFriday (wd : Nat) : Int :=
  let d : Int := 4 - wd
  if d < 1 then d + 7 else d

/-- `Mail.FindSnooze`: `none` when a label already matches the release
pattern or the folder is not one of the five categories; otherwise the
fresh tag `'MoveAt%d' % UnixTime(snooze_until)`. -/
def FindSnooze (m : Mail) (now : Nat) : Option (List Char) :=
  if m.labels.any (fun l => hasMoveAt l) then none
  else
    let today := midnightOf now
    let dayOfWeek := weekdayOf now
    if m.folder = "Snooze.For 1 Hour" then
      some (mkTag (UnixTime (now + hourUs)))
    else if m.folder = "Snooze.Until 18:00" then
      let s := today + 18 * hourUs
      let s := if s < now then s + dayUs else s
      some (mkTag (UnixTime s))
    else if m.folder = "Snooze.Until 7:00" then
      let s := today + 7 * hourUs
      let s := if s < now then s + dayUs else s
      some (mkTag (UnixTime s))
    else if m.folder = "Snooze.Until Monday 7:00" then
      some (mkTag (UnixTime
        (today + (snoozeDaysMonday dayOfWeek).toNat * dayUs + 7 * hourUs)))
    else if m.folder = "Snooze.Until Friday 18:00" then
      some (mkTag (UnixTime
        (today + (snoozeDaysFriday dayOfWeek).toNat * dayUs + 18 * hourUs)))
    else none

/-- `Mail.SetSnooze`: issue one `doveadm flags add` request unless
`FindSnooze` declined or the computed flag is already present. -/
def SetSnooze (user : String) (m : Mail) (now : Nat) : List Action :=
  match FindSnooze m now with
  | none => []
  | some newflag =>
    if newflag ∈ m.labels then []
    else [Action.addTag user m.folder m.uid newflag]

/-- The literal characters of `'\Seen MoveAt'`, the fixed part of the
combined flag-removal argument. -/
def seenMoveAt : List Char :=
  ['\\', 'S', 'e', 'e', 'n', ' ', 'M', 'o', 'v', 'e', 'A', 't']

/-- `Mail.MoveBackToInbox`: issue the combined flag removal for
`'\Seen MoveAt%s' % timestamp` and then the move to INBOX, each exactly
once; a failing exit status of either call only appends a diagnostic. -/
def MoveBackToInbox (user : String) (m : Mail) (ts : List Char)
    (removeFails moveFails : Bool) : List Action × List String :=
  let removeCmd := Action.removeFlags user m.folder m.uid (seenMoveAt ++ ts)
  let removeErrs : List String :=
    if removeFails then ["flags remove before move failed!"] else []
  let moveCmd := Action.move user m.folder m.uid
  let moveErrs : List String :=
    if moveFails then ["move back to inbox failed!"] else []
  ([removeCmd, moveCmd], removeErrs ++ moveErrs)

/-- Loop body of `Mail.CheckRelease` over the label list: for every
label matching the pattern, parse the remainder with `int(...)` (a
parse failure raises, recorded as the `true` flag, abandoning the rest)
and release when the parsed timestamp is `<` the current Unix time. -/
def CheckReleaseGo (user : String) (m : Mail) (now : Nat) :
    List (List Char) → List Action × Bool
  | [] => ([], false)
  | l :: rest =>
    match findMoveAt l with
    | none => CheckReleaseGo user m now rest
    | some ts =>
      match parseInt ts with
      | none => ([], true)
      | some t =>
        if t < (UnixTime now : Int) then
          let tail := CheckReleaseGo user m now rest
          ((MoveBackToInbox user m ts false false).1 ++ tail.1, tail.2)
        else CheckReleaseGo user m now rest

/-- `Mail.CheckRelease` on the mail's own (unmutated) label list. -/
def CheckRelease (user : String) (m : Mail) (now : Nat) :
    List Action × Bool :=
  CheckReleaseGo user m now m.labels

/-- Per-mail body of the sweep: `mail.SetSnooze()` first, then
`mail.CheckRelease()`, both against the labels fetched for this sweep. -/
def processMail (user : String) (m : Mail) (now : Nat) :
    List Action × Bool :=
  let sa := SetSnooze user m now
  let r := CheckRelease user m now
  (sa ++ r.1, r.2)

/-- Run the mails of one folder in order; an exception raised by a mail
keeps the actions already issued and abandons the remaining mails. -/
def runMails (user : String) (now : Nat) : List Mail → List Action × Bool
  | [] => ([], false)
  | m :: rest =>
    let r := processMail user m now
    if r.2 then (r.1, true)
    else
      let rs := runMails user now rest
      (r.1 ++ rs.1, rs.2)

/-- Result of the `doveadm fetch` for one `(user, folder)` pair: either
an exception or the `(uid, labels)` records. -/
def Fetch : Type :=
  String → String → Except Unit (List (String × List (List Char)))

/-- The `try:` body for one folder: a fetch failure or a mail exception
is caught here and reported as `unexpected Error!`; actions already
issued stand. -/
def processFolder (user fld : String) (now : Nat) (fetch : Fetch) :
    List Action × List String :=
  match fetch user fld with
  | Except.error _ => ([], ["unexpected Error!"])
  | Except.ok recs =>
    let r := runMails user now
      (recs.map (fun p => { uid := p.1, labels := p.2, folder := fld }))
    (r.1, if r.2 then ["unexpected Error!"] else [])

/-- Inner loop over the folder list for one user. -/
def sweepFolders (user : String) (now : Nat) (fetch : Fetch) :
    List String → List Action × List String
  | [] => ([], [])
  | f :: fs =>
    let r := processFolder user f now fetch
    let rest := sweepFolders user now fetch fs
    (r.1 ++ rest.1, r.2 ++ rest.2)

/-- One user's pass over all five configured folders. -/
def sweepUser (user : String) (now : Nat) (fetch : Fetch) :
    List Action × List String :=
  sweepFolders user now fetch FOLDERS

/-- The whole sweep: every user in order, every folder in order. -/
def sweep (now : Nat) (fetch : Fetch) :
    List String → List Action × List String
  | [] => ([], [])
  | u :: us =>
    let r := sweepUser u now fetch
    let rest := sweep now fetch us
    (r.1 ++ rest.1, r.2 ++ rest.2)

/-- Store-level effect of an idempotent `flags add` on a label set. -/
def applyAdd (labelSet : List (List Char)) (t : List Char) :
    List (List Char) :=
  if t ∈ labelSet then labelSet else labelSet ++ [t]

/-- Apply the issued add-tag actions to a stored label set (the moves
and flag removals of a release do not add labels). -/
def applyActions (labelSet : List (List Char)) :
    List Action → List (List Char)
  | [] => labelSet
  | Action.addTag _ _ _ t :: rest => applyActions (applyAdd labelSet t) rest
  | _ :: rest => applyActions labelSet rest

/-- Store-level effect of a `flags remove` for a set of flags. -/
def removeFlagList (labelSet : List (List Char))
    (fs : List (List Char)) : List (List Char) :=
  labelSet.filter (fun l => decide (l ∉ fs))

/-- Number of labels matching the release-tag pattern. -/
def countMoveAt (labelSet : List (List Char)) : Nat :=
  (labelSet.filter (fun l => hasMoveAt l)).length

/-- Whether an action is an `addTag` request. -/
def isAddTag : Action → Bool
  | Action.addTag _ _ _ _ => true
  | _ => false

/-- Whether an action is part of a release transition. -/
def isReleaseAction : Action → Bool
  | Action.removeFlags _ _ _ _ => true
  | Action.move _ _ _ => true
  | _ => false

/-- A concrete fetch oracle: the first configured folder fails with an
exception, the second holds one untagged mail, the rest are empty. -/
def fetchC2 : Fetch
  | _, "Snooze.Until Friday 18:00" => Except.error ()
  | _, "Snooze.Until Monday 7:00" => Except.ok [("1", [])]
  | _, _ => Except.ok []

theorem digitChar_toNat (d : Nat) (hd : d < 10) : (digitChar d).toNat = 48 + d := by
  interval_cases d <;> rfl

theorem digitVal_digitChar (d : Nat) (hd : d < 10) :
    digitVal (digitChar d) = some d := by
  interval_cases d <;> rfl

theorem natDigitsAux_mem (fuel : Nat) :
    ∀ n c, c ∈ natDigitsAux fuel n → ∃ d, d < 10 ∧ c = digitChar d := by
  induction fuel with
  | zero => intro n c hc; simp [natDigitsAux] at hc
  | succ fuel ih =>
    intro n c hc
    rw [natDigitsAux] at hc
    by_cases h : n < 10
    · rw [if_pos h] at hc
      simp at hc
      exact ⟨n, h, hc⟩
    · rw [if_neg h] at hc
      rcases List.mem_append.mp hc with h1 | h2
      · exact ih _ _ h1
      · simp at h2
        exact ⟨n % 10, Nat.mod_lt _ (by norm_num), h2⟩

theorem natDigitsAux_ne_nil (fuel n : Nat) (h : n < fuel) :
    natDigitsAux fuel n ≠ [] := by
  cases fuel with
  | zero => omega
  | succ fuel =>
    rw [natDigitsAux]
    by_cases h10 : n < 10
    · simp [h10]
    · simp [h10]

theorem parseDigitsAux_append (acc : Nat) (l1 l2 : List Char) :
    parseDigitsAux acc (l1 ++ l2) =
      (parseDigitsAux acc l1).bind (fun v => parseDigitsAux v l2) := by
  induction l1 generalizing acc with
  | nil => simp [parseDigitsAux]
  | cons c rest ih =>
    rw [List.cons_append, parseDigitsAux, parseDigitsAux]
    cases digitVal c with
    | none => rfl
    | some d => exact ih _

theorem parseDigitsAux_natDigitsAux (fuel : Nat) : ∀ n acc, n < fuel →
    parseDigitsAux acc (natDigitsAux fuel n) =
      some (acc * 10 ^ (natDigitsAux fuel n).length + n) := by
  induction fuel with
  | zero => intro n acc h; omega
  | succ fuel ih =>
    intro n acc h
    rw [natDigitsAux]
    by_cases h10 : n < 10
    · rw [if_pos h10]
      rw [parseDigitsAux]
      rw [digitVal_digitChar n h10]
      show some (acc * 10 + n) = _
      simp
    · rw [if_neg h10]
      have hlt : n / 10 < fuel := by
        have := Nat.div_lt_self (by omega : 0 < n) (by norm_num : 1 < 10)
        omega
      have hdv := digitVal_digitChar (n % 10) (Nat.mod_lt _ (by norm_num))
      rw [parseDigitsAux_append, ih (n / 10) acc hlt]
      show parseDigitsAux (acc * 10 ^ (natDigitsAux fuel (n / 10)).length + n / 10)
        [digitChar (n % 10)] = _
      rw [parseDigitsAux, hdv]
      show some ((acc * 10 ^ (natDigitsAux fuel (n / 10)).length + n / 10) * 10
        + n % 10) = _
      congr 1
      rw [List.length_append, List.length_singleton]
      have h2 : n / 10 * 10 + n % 10 = n := by omega
      calc (acc * 10 ^ (natDigitsAux fuel (n / 10)).length + n / 10) * 10 + n % 10
          = acc * (10 ^ (natDigitsAux fuel (n / 10)).length * 10)
              + (n / 10 * 10 + n % 10) := by ring
        _ = acc * (10 ^ (natDigitsAux fuel (n / 10)).length * 10) + n := by rw [h2]
        _ = acc * 10 ^ ((natDigitsAux fuel (n / 10)).length + 1) + n := by
              rw [pow_succ]

theorem natDigits_ne_nil (n : Nat) : natDigits n ≠ [] :=
  natDigitsAux_ne_nil (n + 1) n (by omega)

theorem natDigits_mem (n : Nat) :
    ∀ c ∈ natDigits n, ∃ d, d < 10 ∧ c = digitChar d :=
  fun c hc => natDigitsAux_mem (n + 1) n c hc

theorem dropSpaces_no_space (l : List Char) (h : ∀ c ∈ l, c ≠ ' ') :
    dropSpaces l = l := by
  cases l with
  | nil => rfl
  | cons c rest => rw [dropSpaces, if_neg (h c (List.mem_cons_self c rest))]

theorem stripSpaces_no_space (l : List Char) (h : ∀ c ∈ l, c ≠ ' ') :
    stripSpaces l = l := by
  rw [stripSpaces, dropSpaces_no_space l h,
    dropSpaces_no_space l.reverse (fun c hc => h c (List.mem_reverse.mp hc)),
    List.reverse_reverse]

theorem parseInt_cons (s : List Char) (c : Char) (rest : List Char)
    (h : stripSpaces s = c :: rest) :
    parseInt s =
      (if c = '-' then (parseDigitsNE rest).map (fun n => -(n : Int))
       else if c = '+' then (parseDigitsNE rest).map (fun n => (n : Int))
       else (parseDigitsNE (c :: rest)).map (fun n => (n : Int))) := by
  rw [parseInt, h]

theorem parseInt_natDigits (n : Nat) : parseInt (natDigits n) = some (n : Int) := by
  have hnospace : ∀ c ∈ natDigits n, c ≠ ' ' := by
    intro c hc
    obtain ⟨d, hd, rfl⟩ := natDigits_mem n c hc
    interval_cases d <;> decide
  obtain ⟨c, rest, hcr⟩ : ∃ c rest, natDigits n = c :: rest := by
    cases h : natDigits n with
    | nil => exact absurd h (natDigits_ne_nil n)
    | cons c rest => exact ⟨c, rest, rfl⟩
  have hstrip : stripSpaces (natDigits n) = c :: rest := by
    rw [stripSpaces_no_space _ hnospace, hcr]
  obtain ⟨d, hd, hcd⟩ :=
    natDigits_mem n c (by rw [hcr]; exact List.mem_cons_self c rest)
  subst hcd
  have hminus : digitChar d ≠ '-' := by interval_cases d <;> decide
  have hplus : digitChar d ≠ '+' := by interval_cases d <;> decide
  rw [parseInt_cons _ _ _ hstrip, if_neg hminus, if_neg hplus]
  have hne : parseDigitsNE (digitChar d :: rest) =
      parseDigitsAux 0 (digitChar d :: rest) := rfl
  rw [hne, ← hcr, natDigits, parseDigitsAux_natDigitsAux (n + 1) n 0 (by omega)]
  simp

theorem findMoveAt_mkTag (n : Nat) : findMoveAt (mkTag n) = some (natDigits n) := rfl

theorem hasMoveAt_mkTag (n : Nat) : hasMoveAt (mkTag n) = true := by
  rw [hasMoveAt, findMoveAt_mkTag]; rfl

theorem hasMoveAt_false_iff (l : List Char) :
    hasMoveAt l = false ↔ findMoveAt l = none := by
  rw [hasMoveAt]; cases findMoveAt l <;> simp

theorem CheckReleaseGo_none (user : String) (m : Mail) (now : Nat)
    (L : List (List Char)) (h : ∀ l ∈ L, hasMoveAt l = false) :
    CheckReleaseGo user m now L = ([], false) := by
  induction L with
  | nil => rfl
  | cons l rest ih =>
    rw [CheckReleaseGo, (hasMoveAt_false_iff l).mp (h l (List.mem_cons_self l rest))]
    exact ih (fun x hx => h x (List.mem_cons_of_mem l hx))

theorem CheckReleaseGo_append_skip (user : String) (m : Mail) (now : Nat)
    (L1 L2 : List (List Char)) (h : ∀ l ∈ L1, hasMoveAt l = false) :
    CheckReleaseGo user m now (L1 ++ L2) = CheckReleaseGo user m now L2 := by
  induction L1 with
  | nil => rfl
  | cons l rest ih =>
    rw [List.cons_append, CheckReleaseGo,
      (hasMoveAt_false_iff l).mp (h l (List.mem_cons_self l rest))]
    exact ih (fun x hx => h x (List.mem_cons_of_mem l hx))

theorem labels_any_false (L : List (List Char))
    (h : ∀ l ∈ L, hasMoveAt l = false) :
    L.any (fun l => hasMoveAt l) = false := by
  rw [List.any_eq_false]
  intro l hl
  simp [h l hl]

theorem FindSnooze_for1hour (uid : String) (L : List (List Char)) (now : Nat)
    (h : ∀ l ∈ L, hasMoveAt l = false) :
    FindSnooze ⟨uid, L, "Snooze.For 1 Hour"⟩ now =
      some (mkTag (UnixTime (now + hourUs))) := by
  rw [FindSnooze, labels_any_false L h]
  simp

theorem FindSnooze_until18 (uid : String) (L : List (List Char)) (now : Nat)
    (h : ∀ l ∈ L, hasMoveAt l = false) :
    FindSnooze ⟨uid, L, "Snooze.Until 18:00"⟩ now =
      some (mkTag (UnixTime
        (if midnightOf now + 18 * hourUs < now
         then midnightOf now + 18 * hourUs + dayUs
         else midnightOf now + 18 * hourUs))) := by
  rw [FindSnooze, labels_any_false L h]
  simp

theorem FindSnooze_until7 (uid : String) (L : List (List Char)) (now : Nat)
    (h : ∀ l ∈ L, hasMoveAt l = false) :
    FindSnooze ⟨uid, L, "Snooze.Until 7:00"⟩ now =
      some (mkTag (UnixTime
        (if midnightOf now + 7 * hourUs < now
         then midnightOf now + 7 * hourUs + dayUs
         else midnightOf now + 7 * hourUs))) := by
  rw [FindSnooze, labels_any_false L h]
  simp

theorem FindSnooze_monday (uid : String) (L : List (List Char)) (now : Nat)
    (h : ∀ l ∈ L, hasMoveAt l = false) :
    FindSnooze ⟨uid, L, "Snooze.Until Monday 7:00"⟩ now =
      some (mkTag (UnixTime (midnightOf now
        + (snoozeDaysMonday (weekdayOf now)).toNat * dayUs + 7 * hourUs))) := by
  rw [FindSnooze, labels_any_false L h]
  simp

theorem FindSnooze_friday (uid : String) (L : List (List Char)) (now : Nat)
    (h : ∀ l ∈ L, hasMoveAt l = false) :
    FindSnooze ⟨uid, L, "Snooze.Until Friday 18:00"⟩ now =
      some (mkTag (UnixTime (midnightOf now
        + (snoozeDaysFriday (weekdayOf now)).toNat * dayUs + 18 * hourUs))) := by
  rw [FindSnooze, labels_any_false L h]
  simp

theorem FindSnooze_none_of_match (m : Mail) (now : Nat)
    (h : ∃ l ∈ m.labels, hasMoveAt l = true) : FindSnooze m now = none := by
  rw [FindSnooze, if_pos]
  rw [List.any_eq_true]
  obtain ⟨l, hl, hm⟩ := h
  exact ⟨l, hl, by simp [hm]⟩

theorem FindSnooze_fresh (m : Mail) (now : Nat)
    (h : ∀ l ∈ m.labels, hasMoveAt l = false) (hf : m.folder ∈ FOLDERS) :
    ∃ t, FindSnooze m now = some (mkTag t) := by
  obtain ⟨uid, L, fld⟩ := m
  simp only [FOLDERS, List.mem_cons, List.mem_singleton] at hf
  simp only at h
  rcases hf with hf | hf | hf | hf | hf | hf
  · subst hf; exact ⟨_, FindSnooze_friday uid L now h⟩
  · subst hf; exact ⟨_, FindSnooze_monday uid L now h⟩
  · subst hf; exact ⟨_, FindSnooze_until7 uid L now h⟩
  · subst hf; exact ⟨_, FindSnooze_until18 uid L now h⟩
  · subst hf; exact ⟨_, FindSnooze_for1hour uid L now h⟩
  · simp at hf

/-- C1: the claim says a day is added exactly when `today + 18:00`
(resp. `07:00`) is less than or equal to `now`, so that at exactly
18:00:00 the release instant falls on the next day.  The code compares
with strict `<`: at `now` = 18:00:00.000000 of the epoch day the
computed instant is `today + 18:00` itself (tag `MoveAt64800`), not the
next day (`MoveAt151200`). -/
theorem C1_counterexample :
    midnightOf (64800 * usec) + 18 * hourUs ≤ 64800 * usec ∧
    FindSnooze ⟨"1", [], "Snooze.Until 18:00"⟩ (64800 * usec) =
      some (mkTag 64800) ∧
    UnixTime (midnightOf (64800 * usec) + 18 * hourUs + dayUs) = 151200 ∧
    mkTag 64800 ≠ mkTag 151200 :=
  ⟨by decide, by decide, by decide, by decide⟩

/-- C1 (amended): for a message without an existing release tag in the
`Until 18:00` (resp. `Until 7:00`) folder, the release instant is today
at 18:00 (resp. 07:00), and one day is added exactly when that instant
is strictly earlier than `now`; at exactly 18:00:00 / 07:00:00 the
release instant stays on today. -/
theorem C1_thm (uid : String) (L : List (List Char)) (now : Nat)
    (h : ∀ l ∈ L, hasMoveAt l = false) :
    (midnightOf now + 18 * hourUs < now →
       FindSnooze ⟨uid, L, "Snooze.Until 18:00"⟩ now =
         some (mkTag (UnixTime (midnightOf now + 18 * hourUs + dayUs)))) ∧
    (¬ midnightOf now + 18 * hourUs < now →
       FindSnooze ⟨uid, L, "Snooze.Until 18:00"⟩ now =
         some (mkTag (UnixTime (midnightOf now + 18 * hourUs)))) ∧
    (midnightOf now + 7 * hourUs < now →
       FindSnooze ⟨uid, L, "Snooze.Until 7:00"⟩ now =
         some (mkTag (UnixTime (midnightOf now + 7 * hourUs + dayUs)))) ∧
    (¬ midnightOf now + 7 * hourUs < now →
       FindSnooze ⟨uid, L, "Snooze.Until 7:00"⟩ now =
         some (mkTag (UnixTime (midnightOf now + 7 * hourUs)))) := by
  refine ⟨fun hlt => ?_, fun hge => ?_, fun hlt => ?_, fun hge => ?_⟩
  · rw [FindSnooze_until18 uid L now h, if_pos hlt]
  · rw [FindSnooze_until18 uid L now h, if_neg hge]
  · rw [FindSnooze_until7 uid L now h, if_pos hlt]
  · rw [FindSnooze_until7 uid L now h, if_neg hge]

/-- C1 witness: at 19:00 the 18:00 folder rolls to the next day; at
06:00 the 7:00 folder targets the same day. -/
theorem C1_witness :
    FindSnooze ⟨"1", [], "Snooze.Until 18:00"⟩ (19 * hourUs) =
      some (mkTag (UnixTime (midnightOf (19 * hourUs) + 18 * hourUs + dayUs))) ∧
    FindSnooze ⟨"1", [], "Snooze.Until 7:00"⟩ (6 * hourUs) =
      some (mkTag (UnixTime (midnightOf (6 * hourUs) + 7 * hourUs))) :=
  ⟨(C1_thm "1" [] (19 * hourUs) (by simp)).1 (by decide),
   (C1_thm "1" [] (6 * hourUs) (by simp)).2.2.2 (by decide)⟩

/-- C3: the claim says the computed release timestamp is strictly
greater than the current time for every folder category.  At `now` =
exactly 18:00:00.000000 of the epoch day, the `Until 18:00` folder
produces the tag `MoveAt64800` whose timestamp equals `UnixTime now`. -/
theorem C3_counterexample :
    FindSnooze ⟨"1", [], "Snooze.Until 18:00"⟩ (64800 * usec) =
      some (mkTag 64800) ∧
    UnixTime (64800 * usec) = 64800 :=
  ⟨by decide, by decide⟩

/-- C3 (amended): for every snooze folder the computed release
timestamp is at least the current Unix time, and it is strictly greater
except when `now` is exactly today's 18:00:00.000000 in the
`Until 18:00` folder or exactly today's 07:00:00.000000 in the
`Until 7:00` folder. -/
theorem C3_thm (m : Mail) (now : Nat)
    (h : ∀ l ∈ m.labels, hasMoveAt l = false) (hf : m.folder ∈ FOLDERS) :
    ∃ t, FindSnooze m now = some (mkTag t) ∧ UnixTime now ≤ t ∧
      (¬ (m.folder = "Snooze.Until 18:00" ∧ now = midnightOf now + 18 * hourUs) →
       ¬ (m.folder = "Snooze.Until 7:00" ∧ now = midnightOf now + 7 * hourUs) →
       UnixTime now < t) := by
  obtain ⟨uid, L, fld⟩ := m
  simp only [FOLDERS, List.mem_cons, List.mem_singleton] at hf
  simp only at h ⊢
  rcases hf with hf | hf | hf | hf | hf | hf
  · subst hf
    refine ⟨_, FindSnooze_friday uid L now h, ?_, fun _ _ => ?_⟩
    · simp only [UnixTime, midnightOf, weekdayOf, snoozeDaysFriday, hourUs, dayUs,
        usec]
      split_ifs <;> omega
    · simp only [UnixTime, midnightOf, weekdayOf, snoozeDaysFriday, hourUs, dayUs,
        usec]
      split_ifs <;> omega
  · subst hf
    refine ⟨_, FindSnooze_monday uid L now h, ?_, fun _ _ => ?_⟩
    · simp only [UnixTime, midnightOf, weekdayOf, snoozeDaysMonday, hourUs, dayUs,
        usec]
      split_ifs <;> omega
    · simp only [UnixTime, midnightOf, weekdayOf, snoozeDaysMonday, hourUs, dayUs,
        usec]
      split_ifs <;> omega
  · subst hf
    refine ⟨_, FindSnooze_until7 uid L now h, ?_, fun _ hne => ?_⟩
    · simp only [UnixTime, midnightOf, hourUs, dayUs, usec]
      split_ifs <;> omega
    · have hnow : now ≠ midnightOf now + 7 * hourUs := fun hx => hne ⟨rfl, hx⟩
      simp only [UnixTime, midnightOf, hourUs, dayUs, usec] at hnow ⊢
      split_ifs <;> omega
  · subst hf
    refine ⟨_, FindSnooze_until18 uid L now h, ?_, fun hne _ => ?_⟩
    · simp only [UnixTime, midnightOf, hourUs, dayUs, usec]
      split_ifs <;> omega
    · have hnow : now ≠ midnightOf now + 18 * hourUs := fun hx => hne ⟨rfl, hx⟩
      simp only [UnixTime, midnightOf, hourUs, dayUs, usec] at hnow ⊢
      split_ifs <;> omega
  · subst hf
    refine ⟨_, FindSnooze_for1hour uid L now h, ?_, fun _ _ => ?_⟩
    · simp only [UnixTime, hourUs, usec]
      omega
    · simp only [UnixTime, hourUs, usec]
      omega
  · simp at hf

/-- C3 witness: at epoch midnight the `For 1 Hour` folder schedules
3600 seconds, strictly after Unix time 0. -/
theorem C3_witness :
    ∃ t, FindSnooze ⟨"1", [], "Snooze.For 1 Hour"⟩ 0 = some (mkTag t) ∧
      UnixTime 0 ≤ t ∧ UnixTime 0 < t := by
  obtain ⟨t, h1, h2, h3⟩ :=
    C3_thm ⟨"1", [], "Snooze.For 1 Hour"⟩ 0 (by simp) (by simp [FOLDERS])
  exact ⟨t, h1, h2, h3 (by simp) (by simp)⟩


theorem CheckReleaseGo_tag (user : String) (m : Mail) (now T : Nat)
    (L2 : List (List Char)) (h2 : ∀ l ∈ L2, hasMoveAt l = false) :
    CheckReleaseGo user m now (mkTag T :: L2) =
      (if T < UnixTime now
       then [Action.removeFlags user m.folder m.uid (seenMoveAt ++ natDigits T),
             Action.move user m.folder m.uid]
       else [], false) := by
  simp only [CheckReleaseGo, findMoveAt_mkTag, parseInt_natDigits]
  rw [CheckReleaseGo_none _ _ _ L2 h2]
  by_cases hT : T < UnixTime now
  · rw [if_pos (show (T : Int) < ((UnixTime now : Nat) : Int) from by exact_mod_cast hT),
      if_pos hT]
    simp [MoveBackToInbox]
  · rw [if_neg (show ¬ (T : Int) < ((UnixTime now : Nat) : Int) from by exact_mod_cast hT),
      if_neg hT]

/-- C4: a message carrying the release tag `MoveAt<T>` (all other
labels non-matching) is released — combined flag removal then move —
exactly when `T` is strictly less than the current Unix time; when
`T ≥` the current Unix time the trace is empty, so the message stays
tagged and in place. -/
theorem C4_thm (user uid folder : String) (L1 L2 : List (List Char)) (T now : Nat)
    (h1 : ∀ l ∈ L1, hasMoveAt l = false) (h2 : ∀ l ∈ L2, hasMoveAt l = false) :
    CheckRelease user ⟨uid, L1 ++ mkTag T :: L2, folder⟩ now =
      (if T < UnixTime now
       then [Action.removeFlags user folder uid (seenMoveAt ++ natDigits T),
             Action.move user folder uid]
       else [], false) := by
  rw [CheckRelease]
  rw [show (⟨uid, L1 ++ mkTag T :: L2, folder⟩ : Mail).labels
      = L1 ++ mkTag T :: L2 from rfl]
  rw [CheckReleaseGo_append_skip _ _ _ _ _ h1]
  exact CheckReleaseGo_tag user _ now T L2 h2


theorem countMoveAt_zero (L : List (List Char))
    (h : ∀ l ∈ L, hasMoveAt l = false) : countMoveAt L = 0 := by
  rw [countMoveAt, List.length_eq_zero, List.filter_eq_nil_iff]
  intro l hl
  simp [h l hl]

theorem SetSnooze_eq_some (user : String) (m : Mail) (now : Nat) (f : List Char)
    (h : FindSnooze m now = some f) :
    SetSnooze user m now =
      if f ∈ m.labels then [] else [Action.addTag user m.folder m.uid f] := by
  rw [SetSnooze, h]

/-- C5: for a message in one of the five snooze folders, the
assignment step performs no write exactly when some existing label
matches the case-insensitive release-tag pattern; applying the issued
write keeps at most one release tag, and a flag removal never
increases the count, so every operation preserves the invariant. -/
theorem C5_thm (user : String) (m : Mail) (now : Nat) (hf : m.folder ∈ FOLDERS) :
    (SetSnooze user m now = [] ↔ ∃ l ∈ m.labels, hasMoveAt l = true) ∧
    (countMoveAt m.labels ≤ 1 →
       countMoveAt (applyActions m.labels (SetSnooze user m now)) ≤ 1) ∧
    (∀ fs, countMoveAt (removeFlagList m.labels fs) ≤ countMoveAt m.labels) := by
  have hmain : (∃ l ∈ m.labels, hasMoveAt l = true) ∨
      (∀ l ∈ m.labels, hasMoveAt l = false) := by
    by_cases hx : ∃ l ∈ m.labels, hasMoveAt l = true
    · exact Or.inl hx
    · refine Or.inr (fun l hl => ?_)
      by_contra hc
      exact hx ⟨l, hl, by revert hc; cases hasMoveAt l <;> simp⟩
  refine ⟨⟨?_, ?_⟩, ?_, ?_⟩
  · intro hempty
    rcases hmain with hm | hm
    · exact hm
    · exfalso
      obtain ⟨t, hft⟩ := FindSnooze_fresh m now hm hf
      rw [SetSnooze_eq_some user m now _ hft] at hempty
      by_cases hmem : mkTag t ∈ m.labels
      · exact absurd (hm _ hmem) (by simp [hasMoveAt_mkTag])
      · rw [if_neg hmem] at hempty
        simp at hempty
  · intro hex
    rw [SetSnooze, FindSnooze_none_of_match m now hex]
  · intro hc
    rcases hmain with hm | hm
    · rw [SetSnooze, FindSnooze_none_of_match m now hm]
      simpa [applyActions] using hc
    · obtain ⟨t, hft⟩ := FindSnooze_fresh m now hm hf
      rw [SetSnooze_eq_some user m now _ hft]
      by_cases hmem : mkTag t ∈ m.labels
      · exact absurd (hm _ hmem) (by simp [hasMoveAt_mkTag])
      · rw [if_neg hmem]
        have h0 : countMoveAt m.labels = 0 := countMoveAt_zero _ hm
        simp only [applyActions, applyAdd, if_neg hmem]
        have h1 : countMoveAt (m.labels ++ [mkTag t]) =
            countMoveAt m.labels + 1 := by
          simp [countMoveAt, List.filter_append, hasMoveAt_mkTag]
        omega
  · intro fs
    exact List.Sublist.length_le ((List.filter_sublist _).filter _)

/-- C6: `Until Monday 7:00` adds `7 - weekday(today)` days (Monday=0,
with 7 substituted when the difference is 0) targeting 07:00, and
`Until Friday 18:00` adds `4 - weekday(today)` days (plus 7 when the
difference is below 1) targeting 18:00; the added days always lie in
1..7 and land on a Monday (resp. Friday); on a Wednesday the Monday
rule yields exactly 5 days ahead at 07:00 and the Friday rule exactly
2 days ahead at 18:00. -/
theorem C6_thm (uid : String) (L : List (List Char)) (now : Nat)
    (h : ∀ l ∈ L, hasMoveAt l = false) :
    FindSnooze ⟨uid, L, "Snooze.Until Monday 7:00"⟩ now =
      some (mkTag (UnixTime (midnightOf now
        + (snoozeDaysMonday (weekdayOf now)).toNat * dayUs + 7 * hourUs))) ∧
    FindSnooze ⟨uid, L, "Snooze.Until Friday 18:00"⟩ now =
      some (mkTag (UnixTime (midnightOf now
        + (snoozeDaysFriday (weekdayOf now)).toNat * dayUs + 18 * hourUs))) ∧
    (1 ≤ (snoozeDaysMonday (weekdayOf now)).toNat ∧
      (snoozeDaysMonday (weekdayOf now)).toNat ≤ 7 ∧
      weekdayOf (midnightOf now
        + (snoozeDaysMonday (weekdayOf now)).toNat * dayUs + 7 * hourUs) = 0) ∧
    (1 ≤ (snoozeDaysFriday (weekdayOf now)).toNat ∧
      (snoozeDaysFriday (weekdayOf now)).toNat ≤ 7 ∧
      weekdayOf (midnightOf now
        + (snoozeDaysFriday (weekdayOf now)).toNat * dayUs + 18 * hourUs) = 4) ∧
    (weekdayOf now = 2 →
      FindSnooze ⟨uid, L, "Snooze.Until Monday 7:00"⟩ now =
        some (mkTag (UnixTime (midnightOf now + 5 * dayUs + 7 * hourUs))) ∧
      FindSnooze ⟨uid, L, "Snooze.Until Friday 18:00"⟩ now =
        some (mkTag (UnixTime (midnightOf now + 2 * dayUs + 18 * hourUs)))) := by
  refine ⟨FindSnooze_monday uid L now h, FindSnooze_friday uid L now h, ?_, ?_, ?_⟩
  · simp only [snoozeDaysMonday, weekdayOf, midnightOf, dayUs, hourUs, usec]
    split_ifs <;> omega
  · simp only [snoozeDaysFriday, weekdayOf, midnightOf, dayUs, hourUs, usec]
    split_ifs <;> omega
  · intro hw
    constructor
    · rw [FindSnooze_monday uid L now h, hw,
        show (snoozeDaysMonday 2).toNat = 5 from by decide]
    · rw [FindSnooze_friday uid L now h, hw,
        show (snoozeDaysFriday 2).toNat = 2 from by decide]

theorem SetSnooze_eq_none (user : String) (m : Mail) (now : Nat)
    (h : FindSnooze m now = none) : SetSnooze user m now = [] := by
  rw [SetSnooze, h]

theorem mem_SetSnooze (user : String) (m : Mail) (now : Nat) (a : Action)
    (ha : a ∈ SetSnooze user m now) :
    ∃ f, a = Action.addTag user m.folder m.uid f := by
  cases hfs : FindSnooze m now with
  | none =>
    rw [SetSnooze_eq_none user m now hfs] at ha
    simp at ha
  | some f =>
    rw [SetSnooze_eq_some user m now f hfs] at ha
    by_cases hmem : f ∈ m.labels
    · rw [if_pos hmem] at ha
      simp at ha
    · rw [if_neg hmem] at ha
      simp at ha
      exact ⟨f, ha⟩

/-- C6 witness: 1970-01-07 is a Wednesday; at 10:00 that day the
Monday folder schedules 5 days ahead at 07:00 and the Friday folder
2 days ahead at 18:00. -/
theorem C6_witness :
    weekdayOf (6 * dayUs + 10 * hourUs) = 2 ∧
    FindSnooze ⟨"1", [], "Snooze.Until Monday 7:00"⟩ (6 * dayUs + 10 * hourUs) =
      some (mkTag (UnixTime (midnightOf (6 * dayUs + 10 * hourUs)
        + 5 * dayUs + 7 * hourUs))) ∧
    FindSnooze ⟨"1", [], "Snooze.Until Friday 18:00"⟩ (6 * dayUs + 10 * hourUs) =
      some (mkTag (UnixTime (midnightOf (6 * dayUs + 10 * hourUs)
        + 2 * dayUs + 18 * hourUs))) :=
  ⟨by decide,
   ((C6_thm "1" [] (6 * dayUs + 10 * hourUs) (by simp)).2.2.2.2
     (by decide)).1,
   ((C6_thm "1" [] (6 * dayUs + 10 * hourUs) (by simp)).2.2.2.2
     (by decide)).2⟩

/-- C4 witness: a mail tagged `MoveAt100` is released at Unix time 200
(the removal names the literal combined flag string) and, by the same
theorem at Unix time 100, the gate is evaluated by the same strict
comparison. -/
theorem C4_witness :
    CheckRelease "u" ⟨"1", [] ++ mkTag 100 :: [], "Snooze.For 1 Hour"⟩
        (200 * usec) =
      (if 100 < UnixTime (200 * usec)
       then [Action.removeFlags "u" "Snooze.For 1 Hour" "1"
               (seenMoveAt ++ natDigits 100),
             Action.move "u" "Snooze.For 1 Hour" "1"]
       else [], false) :=
  C4_thm "u" "1" "Snooze.For 1 Hour" [] [] 100 (200 * usec)
    (by simp) (by simp)

/-- C5 witness: the assignment/no-write equivalence and the
one-release-tag invariant, instantiated on an untagged mail in the
`For 1 Hour` folder at epoch time. -/
theorem C5_witness :
    (SetSnooze "u" ⟨"1", [], "Snooze.For 1 Hour"⟩ 0 = [] ↔
      ∃ l ∈ (Mail.mk "1" [] "Snooze.For 1 Hour").labels, hasMoveAt l = true) ∧
    (countMoveAt (Mail.mk "1" [] "Snooze.For 1 Hour").labels ≤ 1 →
       countMoveAt (applyActions (Mail.mk "1" [] "Snooze.For 1 Hour").labels
         (SetSnooze "u" ⟨"1", [], "Snooze.For 1 Hour"⟩ 0)) ≤ 1) ∧
    (∀ fs, countMoveAt (removeFlagList
        (Mail.mk "1" [] "Snooze.For 1 Hour").labels fs) ≤
      countMoveAt (Mail.mk "1" [] "Snooze.For 1 Hour").labels) :=
  C5_thm "u" ⟨"1", [], "Snooze.For 1 Hour"⟩ 0 (by simp [FOLDERS])

/-- C7: per mail the sweep runs `SetSnooze` before `CheckRelease`, and
for a mail with no existing release tag the whole per-mail trace is the
assignment only — no release action can target a freshly tagged mail in
the same sweep, because `CheckRelease` reads the unmutated label list. -/
theorem C7_thm (user : String) (m : Mail) (now : Nat)
    (h : ∀ l ∈ m.labels, hasMoveAt l = false) :
    (processMail user m now).1 =
      SetSnooze user m now ++ (CheckRelease user m now).1 ∧
    CheckRelease user m now = ([], false) ∧
    ∀ a ∈ (processMail user m now).1, isReleaseAction a = false := by
  have hcr : CheckRelease user m now = ([], false) := by
    rw [CheckRelease]
    exact CheckReleaseGo_none user m now m.labels h
  refine ⟨rfl, hcr, ?_⟩
  intro a ha
  simp only [processMail, hcr, List.append_nil] at ha
  obtain ⟨f, rfl⟩ := mem_SetSnooze user m now a ha
  rfl

/-- C7 witness: instantiated on an untagged mail in the `For 1 Hour`
folder at epoch time. -/
theorem C7_witness :
    (processMail "u" ⟨"1", [], "Snooze.For 1 Hour"⟩ 0).1 =
      SetSnooze "u" ⟨"1", [], "Snooze.For 1 Hour"⟩ 0 ++
        (CheckRelease "u" ⟨"1", [], "Snooze.For 1 Hour"⟩ 0).1 ∧
    CheckRelease "u" ⟨"1", [], "Snooze.For 1 Hour"⟩ 0 = ([], false) ∧
    ∀ a ∈ (processMail "u" ⟨"1", [], "Snooze.For 1 Hour"⟩ 0).1,
      isReleaseAction a = false :=
  C7_thm "u" ⟨"1", [], "Snooze.For 1 Hour"⟩ 0 (by simp)

/-- C8: on a mail with no release tag the first assignment issues
exactly one `AddTag`; a second assignment run on the stored tag set
extended by that very tag issues nothing, so exactly one `AddTag` is
issued across the two runs. -/
theorem C8_thm (user uid folder : String) (L : List (List Char))
    (now1 now2 : Nat) (hf : folder ∈ FOLDERS)
    (h : ∀ l ∈ L, hasMoveAt l = false) :
    ∃ f, SetSnooze user ⟨uid, L, folder⟩ now1 =
        [Action.addTag user folder uid f] ∧
      SetSnooze user ⟨uid, L ++ [f], folder⟩ now2 = [] ∧
      ((SetSnooze user ⟨uid, L, folder⟩ now1 ++
          SetSnooze user ⟨uid, L ++ [f], folder⟩ now2).filter isAddTag).length
        = 1 := by
  obtain ⟨t, hft⟩ :=
    FindSnooze_fresh ⟨uid, L, folder⟩ now1 (by simpa using h) hf
  have hmem : mkTag t ∉ (⟨uid, L, folder⟩ : Mail).labels := by
    intro hx
    have := h _ (by simpa using hx)
    simp [hasMoveAt_mkTag] at this
  have h1 : SetSnooze user ⟨uid, L, folder⟩ now1 =
      [Action.addTag user folder uid (mkTag t)] := by
    rw [SetSnooze_eq_some user _ now1 _ hft, if_neg hmem]
  have h2 : SetSnooze user ⟨uid, L ++ [mkTag t], folder⟩ now2 = [] := by
    apply SetSnooze_eq_none
    exact FindSnooze_none_of_match _ now2 ⟨mkTag t, by simp, hasMoveAt_mkTag t⟩
  refine ⟨mkTag t, h1, h2, ?_⟩
  rw [h1, h2]
  simp [isAddTag]

/-- C8 witness: instantiated on an untagged mail in the `For 1 Hour`
folder at epoch time for both runs. -/
theorem C8_witness :
    ∃ f, SetSnooze "u" ⟨"1", [], "Snooze.For 1 Hour"⟩ 0 =
        [Action.addTag "u" "Snooze.For 1 Hour" "1" f] ∧
      SetSnooze "u" ⟨"1", [] ++ [f], "Snooze.For 1 Hour"⟩ 0 = [] ∧
      ((SetSnooze "u" ⟨"1", [], "Snooze.For 1 Hour"⟩ 0 ++
          SetSnooze "u" ⟨"1", [] ++ [f], "Snooze.For 1 Hour"⟩ 0).filter
        isAddTag).length = 1 :=
  C8_thm "u" "1" "Snooze.For 1 Hour" [] 0 0 (by simp [FOLDERS]) (by simp)

/-- C9: once a release timestamp has elapsed, the transition issues the
combined flag removal for the literal `'\Seen MoveAt<T>'` string and
then the move to INBOX; both requests are issued (each exactly once,
the removal first) whatever the exit status of either call, and a
failure only appends its diagnostic line. -/
theorem C9_thm (user : String) (m : Mail) (ts : List Char) (fr fm : Bool) :
    (MoveBackToInbox user m ts fr fm).1 =
      [Action.removeFlags user m.folder m.uid (seenMoveAt ++ ts),
       Action.move user m.folder m.uid] ∧
    Action.removeFlags user m.folder m.uid (seenMoveAt ++ ts) ≠
      Action.move user m.folder m.uid ∧
    (MoveBackToInbox user m ts fr fm).2 =
      (if fr then ["flags remove before move failed!"] else []) ++
      (if fm then ["move back to inbox failed!"] else []) :=
  ⟨rfl, by simp, rfl⟩

/-- C10: the fetched tag `MoveAtx` has a non-numeric remainder; its
`int(...)` conversion raises inside `CheckRelease` instead of ignoring
the tag, and the per-folder handler then abandons the folder's
remaining messages: run together with an untagged mail, that mail's
assignment (which happens when it runs alone) is never issued. -/
theorem C10_thm :
    parseInt ['x'] = none ∧
    CheckRelease "u"
        ⟨"1", [['M', 'o', 'v', 'e', 'A', 't', 'x']], "Snooze.For 1 Hour"⟩ 0 =
      ([], true) ∧
    runMails "u" 0
        [⟨"1", [['M', 'o', 'v', 'e', 'A', 't', 'x']], "Snooze.For 1 Hour"⟩,
         ⟨"2", [], "Snooze.For 1 Hour"⟩] = ([], true) ∧
    runMails "u" 0 [⟨"2", [], "Snooze.For 1 Hour"⟩] =
      ([Action.addTag "u" "Snooze.For 1 Hour" "2" (mkTag 3600)], false) :=
  ⟨by decide, by decide, by decide, by decide⟩

/-- C2: the claim says an exception while processing one of a user's
folders makes the sweep skip that user's remaining folders.  The
`try/except` sits inside the folder loop: with a fetch oracle whose
first folder raises, the sweep still processes the user's second
folder and issues its assignment. -/
theorem C2_counterexample :
    fetchC2 "u" "Snooze.Until Friday 18:00" = Except.error () ∧
    "Snooze.Until Friday 18:00" ∈ FOLDERS ∧
    "Snooze.Until Monday 7:00" ∈ FOLDERS ∧
    (sweep 0 fetchC2 ["u"]).1 =
      [Action.addTag "u" "Snooze.Until Monday 7:00" "1" (mkTag 370800)] :=
  ⟨rfl, by decide, by decide, by decide⟩

/-- C2 (amended): an unexpected exception (fetch failure or a raising
mail) is reported as `unexpected Error!` and abandons only the
remaining messages of that folder; the user's other folders and every
subsequent user are still processed normally (each folder's and user's
contribution is independent of the others' outcomes). -/
theorem C2_thm :
    (∀ (u : String) (us : List String) (now : Nat) (fetch : Fetch),
       sweep now fetch (u :: us) =
         ((sweepUser u now fetch).1 ++ (sweep now fetch us).1,
          (sweepUser u now fetch).2 ++ (sweep now fetch us).2)) ∧
    (∀ (user f : String) (fs : List String) (now : Nat) (fetch : Fetch),
       sweepFolders user now fetch (f :: fs) =
         ((processFolder user f now fetch).1 ++
            (sweepFolders user now fetch fs).1,
          (processFolder user f now fetch).2 ++
            (sweepFolders user now fetch fs).2)) ∧
    (∀ (user fld : String) (now : Nat) (fetch : Fetch),
       fetch user fld = Except.error () →
         processFolder user fld now fetch = ([], ["unexpected Error!"])) ∧
    (∀ (user : String) (now : Nat) (ms1 : List Mail) (m : Mail)
       (ms2 : List Mail),
       (runMails user now ms1).2 = false →
       (processMail user m now).2 = true →
         runMails user now (ms1 ++ m :: ms2) =
           ((runMails user now ms1).1 ++ (processMail user m now).1, true)) := by
  refine ⟨fun u us now fetch => rfl, fun user f fs now fetch => rfl,
    fun user fld now fetch herr => ?_, fun user now ms1 m ms2 h1 h2 => ?_⟩
  · rw [processFolder, herr]
  · induction ms1 with
    | nil => simp [runMails, h2]
    | cons x rest ih =>
      have hx : (processMail user x now).2 = false := by
        by_contra hxx
        have hxt : (processMail user x now).2 = true := by
          revert hxx; cases (processMail user x now).2 <;> simp
        simp [runMails, hxt] at h1
      have h1r : (runMails user now rest).2 = false := by
        simp [runMails, hx] at h1
        exact h1
      rw [List.cons_append]
      simp [runMails, hx, ih h1r, List.append_assoc]

/-- C2 witness: a mail whose malformed tag raises during release
checking aborts the rest of its folder: the trailing untagged mail is
never processed. -/
theorem C2_witness :
    runMails "u" 0
        ([] ++ ⟨"1", [['M', 'o', 'v', 'e', 'A', 't', 'x']],
            "Snooze.For 1 Hour"⟩ :: [⟨"2", [], "Snooze.For 1 Hour"⟩]) =
      ((runMails "u" 0 []).1 ++
        (processMail "u"
          ⟨"1", [['M', 'o', 'v', 'e', 'A', 't', 'x']], "Snooze.For 1 Hour"⟩
          0).1, true) :=
  C2_thm.2.2.2 "u" 0 []
    ⟨"1", [['M', 'o', 'v', 'e', 'A', 't', 'x']], "Snooze.For 1 Hour"⟩
    [⟨"2", [], "Snooze.For 1 Hour"⟩] (by decide) (by decide)

end Snooze
